import Mathlib

/-!
Verification of the event-detection core of `analyze_beats.py`.

The numeric pipeline is embedded shallowly: Python floats become `ℚ`,
numpy arrays become `List ℚ`, and each source function is translated
into an executable Lean definition with the same name where possible.
-/

set_option maxRecDepth 2500

attribute [local semireducible] Rat.add Rat.sub Rat.mul Rat.inv Rat.ofScientific

namespace AnalyzeBeats

/-- Visual event record: the `VisualEvent` dataclass from `analyze_beats.py`. -/
structure VisualEvent where
  ts_ms : ℚ
  label : String
  detail : String
deriving DecidableEq, Repr

/-- Linear-interpolation percentile, as computed by `np.percentile(arr, q)`
with the default interpolation: sort the data, take the virtual index
`(n - 1) * q / 100`, and interpolate linearly between the two surrounding
order statistics. -/
def percentile (l : List ℚ) (q : ℚ) : ℚ :=
  let s := l.insertionSort (· ≤ ·)
  let i : ℚ := ((l.length : ℚ) - 1) * q / 100
  let k : ℕ := i.floor.toNat
  let lo := s.getD k 0
  let hi := s.getD (k + 1) lo
  lo + (i - (k : ℚ)) * (hi - lo)

/-- Median as computed by `np.median(arr)` (the 50th percentile with
linear interpolation: middle element for odd length, average of the two
middle elements for even length). -/
def median (l : List ℚ) : ℚ := percentile l 50

/-- Raw median absolute deviation: `np.median(np.abs(arr - med))` inside
`_mad` in `analyze_beats.py`. -/
def rawMad (l : List ℚ) : ℚ := median (l.map (fun x => |x - median l|))

/-- The `_mad` helper of `analyze_beats.py`:
`float(np.median(np.abs(arr - med))) or 1.0`.  Python's `or` replaces the
value by `1.0` exactly when it is `0.0`; any non-zero value (including
values strictly between 0 and 1) is returned unchanged. -/
def _mad (l : List ℚ) : ℚ := if rawMad l = 0 then 1 else rawMad l

/-- Modelled from the spec's words (for refinement comparison with `_mad`):
"MAD = median absolute deviation (with a floor of 1.0 ...)", i.e.
`max(raw MAD, 1.0)`. -/
def specMadFloor (l : List ℚ) : ℚ := max (rawMad l) 1

/-! ### Green (flash) detection: rising edges with debounce -/

/-- Default `green_k` of `detect_round_events`. -/
def greenKDefault : ℚ := 3.5

/-- Default `cluster_gap_ms` of `detect_round_events`. -/
def clusterGapMsDefault : ℚ := 1200

/-- Default `expect_rounds` of `detect_round_events`. -/
def expectRoundsDefault : ℕ := 5

/-- Default `appear_diff_k` of `detect_round_events`. -/
def appearDiffKDefault : ℚ := 4

/-- Default `appear_min_ms` of the core function `detect_round_events`
(its signature reads `appear_min_ms: float = 0.0`). -/
def appearMinMsDefault : ℚ := 0

/-- Default of the `--appear-min-ms` command-line argument in `main`
(`default=2000.0`). -/
def cliAppearMinMsDefault : ℚ := 2000

/-- Default `shuffle_k` of the core function `detect_round_events`
(its signature reads `shuffle_k: float = 3.5`). -/
def shuffleKDefault : ℚ := 3.5

/-- Default of the `--shuffle-k` command-line argument in `main`
(`default=3.0`). -/
def cliShuffleKDefault : ℚ := 3

/-- Green threshold: `max(base + green_k * _mad(arr), np.percentile(arr, 92))`
with `base = np.median(arr)`. -/
def greenThreshold (green_k : ℚ) (arr : List ℚ) : ℚ :=
  max (median arr + green_k * _mad arr) (percentile arr 92)

/-- The debounce gap `min_gap_frames = int(fps * 0.4)`. -/
def minGapFrames (fps : ℚ) : ℤ := (fps * (2/5)).floor

/-- Rising-edge test at frame `f`: `arr[f] > thr and arr[f-1] <= thr`. -/
def isRisingEdge (arr : List ℚ) (thr : ℚ) (f : ℕ) : Bool :=
  decide (thr < arr.getD f 0) && decide (arr.getD (f - 1) 0 ≤ thr)

/-- The rising-edge frames of a series (positions `1 ≤ f < len` whose value
crosses the threshold upward), before any debouncing. -/
def risingEdges (arr : List ℚ) (thr : ℚ) : List ℕ :=
  ((List.range arr.length).drop 1).filter (isRisingEdge arr thr)

/-- One step loop of the green detector over candidate frames, carrying
`last_fire` (initialised to `-10_000` by the caller):
fire at `f` when it is a rising edge and `f - last_fire >= min_gap_frames`. -/
def fireGo (arr : List ℚ) (thr : ℚ) (gap : ℤ) : List ℕ → ℤ → List ℕ
  | [], _ => []
  | f :: fs, last =>
    if isRisingEdge arr thr f && decide (gap ≤ (f : ℤ) - last) then
      f :: fireGo arr thr gap fs (f : ℤ)
    else
      fireGo arr thr gap fs last

/-- Green-event frames for one tile: the loop
`for f in range(1, len(arr)): ...` of `detect_round_events` with
`last_fire = -10_000`. -/
def greenFires (arr : List ℚ) (thr : ℚ) (gap : ℤ) : List ℕ :=
  fireGo arr thr gap ((List.range arr.length).drop 1) (-10000)

/-- Pure debounce loop over a list of edge frames (specification device for
`fireGo`): keep an edge when it is at least `gap` frames after the last kept
one. -/
def deb (gap : ℤ) : List ℕ → ℤ → List ℕ
  | [], _ => []
  | f :: fs, last =>
    if gap ≤ (f : ℤ) - last then f :: deb gap fs (f : ℤ) else deb gap fs last

/-- All green events `(frame, tile)` in the order `detect_round_events`
builds them: tile-major (the outer loop is over tiles), frame-ascending
within each tile. -/
def allGreenEvents (fps green_k : ℚ) (sigs : List (List ℚ)) : List (ℕ × ℕ) :=
  (sigs.enum).flatMap (fun is =>
    (greenFires is.2 (greenThreshold green_k is.2) (minGapFrames fps)).map
      (fun f => (f, is.1)))

/-- Stable sort of green events by frame index
(`green_events.sort(key=lambda x: x[0])`). -/
def sortByFrame (evs : List (ℕ × ℕ)) : List (ℕ × ℕ) :=
  evs.insertionSort (fun a b => a.1 ≤ b.1)

/-! ### Round clustering -/

/-- Greedy clustering loop: `cur` is the (nonempty) cluster being grown; an
event joins it when `(f - last_f) * 1000.0 / fps <= cluster_gap_ms` where
`last_f` is the frame of the last event added to `cur`
(`clusters[-1][-1][0]`). -/
def clusterGo (fps gap : ℚ) (cur : List (ℕ × ℕ)) :
    List (ℕ × ℕ) → List (List (ℕ × ℕ))
  | [] => [cur]
  | e :: rest =>
    if ((e.1 : ℚ) - ((cur.getLastD (0, 0)).1 : ℚ)) * 1000 / fps ≤ gap then
      clusterGo fps gap (cur ++ [e]) rest
    else
      cur :: clusterGo fps gap [e] rest

/-- Cluster the (sorted) green events into rounds, as the clustering loop of
`detect_round_events` does. -/
def clusterEvents (fps gap : ℚ) : List (ℕ × ℕ) → List (List (ℕ × ℕ))
  | [] => []
  | e :: rest => clusterGo fps gap [e] rest

/-- Per-cluster deduplication by tile: the `seen` set loop; the first
occurrence of each tile is kept. -/
def dedupByTile : List (ℕ × ℕ) → List ℕ → List (ℕ × ℕ)
  | [], _ => []
  | p :: rest, seen =>
    if p.2 ∈ seen then dedupByTile rest seen
    else p :: dedupByTile rest (p.2 :: seen)

/-- The flash event emitted for pair `p = (frame, tile)` of the cluster with
1-indexed round number `round`. -/
def mkGreenEvent (fps : ℚ) (round : ℕ) (p : ℕ × ℕ) : VisualEvent :=
  ⟨(p.1 : ℚ) * 1000 / fps, "cell_" ++ toString p.2,
    "green_round" ++ toString round⟩

/-- Emission loop over the kept clusters
(`for round_idx, cluster in enumerate(clusters)`), `i` being the 0-indexed
round counter. -/
def roundEventsGo (fps : ℚ) : ℕ → List (List (ℕ × ℕ)) → List VisualEvent
  | _, [] => []
  | i, c :: cs =>
    (dedupByTile c []).map (mkGreenEvent fps (i + 1)) ++
      roundEventsGo fps (i + 1) cs

/-- The flash sub-pipeline of `detect_round_events`: per-tile rising-edge
detection, stable sort by frame, greedy clustering, truncation to
`expect_rounds` clusters, per-cluster deduplication and emission. -/
def greenPipeline (fps green_k gap : ℚ) (expect : ℕ)
    (sigs : List (List ℚ)) : List VisualEvent :=
  roundEventsGo fps 0
    ((clusterEvents fps gap (sortByFrame (allGreenEvents fps green_k sigs))).take
      expect)

/-! ### Appear detection -/

/-- `search_upto = min(len(arr), first_green_frame) if first_green_frame > 0
else len(arr)`. -/
def searchUpto (n fg : ℕ) : ℕ := if 0 < fg then min n fg else n

/-- The restricted window `arr[:search_upto]`. -/
def appearWindow (s : List ℚ) (fg : ℕ) : List ℚ := s.take (searchUpto s.length fg)

/-- The appear threshold
`max(np.percentile(window, 97), np.median(window) + appear_diff_k * _mad(window))`. -/
def appearThr (k : ℚ) (w : List ℚ) : ℚ :=
  max (percentile w 97) (median w + k * _mad w)

/-- `idxs = np.where(window >= thr)[0]`: indices meeting the threshold, in
ascending order. -/
def appearIdxs (k : ℚ) (w : List ℚ) : List ℕ :=
  (List.range w.length).filter (fun idx => decide (appearThr k w ≤ w.getD idx 0))

/-- Appear detection for one tile `i` with diff series `s` and
`first_green_frame = fg`: skip when the series is empty or the window is
shorter than 5 samples; otherwise emit, among threshold-meeting indices, the
first whose timestamp `(idx + 1) * 1000 / fps` is `≥ appear_min_ms`. -/
def appearEventFor (fps k m : ℚ) (i : ℕ) (s : List ℚ) (fg : ℕ) :
    Option VisualEvent :=
  if s.length = 0 then none
  else if searchUpto s.length fg < 5 then none
  else
    let w := appearWindow s fg
    ((appearIdxs k w).filter
        (fun (idx : ℕ) => decide (m ≤ ((idx : ℚ) + 1) * 1000 / fps))).head?.map
      (fun (idx : ℕ) =>
        ⟨((idx : ℚ) + 1) * 1000 / fps, "cell_" ++ toString i, "appear"⟩)

/-- Appear loop over all tiles (`for i, series in enumerate(tile_diffs)`). -/
def appearStageGo (fps k m : ℚ) (fg : ℕ) :
    ℕ → List (List ℚ) → List VisualEvent
  | _, [] => []
  | i, s :: rest =>
    (appearEventFor fps k m i s fg).toList ++ appearStageGo fps k m fg (i + 1) rest

/-- All appear events, in tile order. -/
def appearStage (fps k m : ℚ) (tileDiffs : List (List ℚ)) (fg : ℕ) :
    List VisualEvent :=
  appearStageGo fps k m fg 0 tileDiffs

/-- `first_green_frame = green_events[0][0] if green_events else
(len(tile_diffs[0]) if tile_diffs and tile_diffs[0] else 0)`.  Note that the
code reads `green_events[0]` before sorting, so this is the first fire of the
lowest-indexed tile that fires, not the globally earliest fire. -/
def firstGreenFrame (greenEvs : List (ℕ × ℕ)) (tileDiffs : List (List ℚ)) : ℕ :=
  match greenEvs with
  | (f, _) :: _ => f
  | [] =>
    match tileDiffs with
    | [] => 0
    | d0 :: _ => if d0.isEmpty then 0 else d0.length

/-! ### Shuffle detection -/

/-- The shuffle threshold `base + shuffle_k * _mad(diff_arr)` with
`base = np.median(diff_arr)` — note: no percentile term. -/
def shuffleThreshold (shuffle_k : ℚ) (diffs : List ℚ) : ℚ :=
  median diffs + shuffle_k * _mad diffs

/-- Modelled from the spec's words (for refinement comparison with
`shuffleThreshold`): the shared adaptive-threshold primitive
`max(median + k·MAD, percentile(series, P))`. -/
def specAdaptiveThreshold (k p : ℚ) (l : List ℚ) : ℚ :=
  max (median l + k * _mad l) (percentile l p)

/-- First index of the maximum of a nonempty window (`np.argmax`),
scanning left to right and keeping the first strict maximum. -/
def argmaxGo (l : List ℚ) (i best : ℕ) (bestv : ℚ) : ℕ :=
  match l with
  | [] => best
  | t :: rest =>
    if bestv < t then argmaxGo rest (i + 1) i t
    else argmaxGo rest (i + 1) best bestv

/-- `int(np.argmax(window))` (0 for an empty window, unused there). -/
def argmaxIdx : List ℚ → ℕ
  | [] => 0
  | t :: rest => argmaxGo rest 1 0 t

/-- The shuffle loop of `detect_round_events`: for each adjacent pair of kept
clusters, pick the strongest global-diff frame strictly between them and emit
it (always when `force_shuffle`, with a `"_lowconf"` suffix when the peak is
not above threshold). -/
def shuffleEvents (fps shuffle_k : ℚ) (force : Bool) (diffs : List ℚ)
    (cls : List (List (ℕ × ℕ))) : List VisualEvent :=
  if diffs.isEmpty || cls.isEmpty then []
  else
    let thr := shuffleThreshold shuffle_k diffs
    (List.range (cls.length - 1)).flatMap (fun idx =>
      let start_f := ((cls.getD idx []).getLastD (0, 0)).1 + 1
      let end_f : ℤ := (((cls.getD (idx + 1) []).headD (0, 0)).1 : ℤ) - 1
      if end_f ≤ (start_f : ℤ) then []
      else
        let window := (diffs.drop start_f).take (end_f - start_f).toNat
        if window.isEmpty then []
        else
          let peak_rel := argmaxIdx window
          let peak_val := window.getD peak_rel 0
          let peak_f := start_f + peak_rel
          if decide (thr < peak_val) || force then
            [⟨((peak_f : ℚ) + 1) * 1000 / fps, "layout",
              "shuffle_round" ++ toString (idx + 2) ++
                (if peak_val ≤ thr then "_lowconf" else "")⟩]
          else [])

/-! ### The full detector -/

/-- Shallow embedding of `detect_round_events`.  The video capture is
abstracted as an `opened` flag, an `fps` reading and a list of decoded
frames; per-tile signal extraction (`_border_green`, the per-tile and global
`absdiff` means) is abstracted by the functions `greenOf`, `tileDiffOf` and
`globalDiffOf` over `nTiles` tiles.  The function fails (raises) exactly as
the Python does: when the capture is not opened, or when the first frame
cannot be read. -/
def detectRoundEvents {α : Type} (opened : Bool) (fps0 : ℚ) (framesL : List α)
    (greenOf : ℕ → α → ℚ) (tileDiffOf : ℕ → α → α → ℚ)
    (globalDiffOf : α → α → ℚ) (nTiles : ℕ)
    (expect_rounds : ℕ) (cluster_gap_ms green_k appear_k shuffle_k
      appear_diff_k appear_min_ms : ℚ) (force_shuffle : Bool) :
    Except String (List VisualEvent × ℚ) :=
  if opened = false then .error "Cannot open video"
  else
    match framesL with
    | [] => .error "Cannot read first frame"
    | f0 :: rest =>
      let _ := appear_k  -- accepted but unused by the Python body as well
      let fps := if fps0 = 0 then 30 else fps0
      let frames := f0 :: rest
      let green_sig := (List.range nTiles).map (fun i => frames.map (greenOf i))
      let pairs := frames.zip rest
      let tile_diffs :=
        (List.range nTiles).map (fun i => pairs.map (fun pq => tileDiffOf i pq.1 pq.2))
      let diffs := pairs.map (fun pq => globalDiffOf pq.1 pq.2)
      let greenEvs := allGreenEvents fps green_k green_sig
      let fg := firstGreenFrame greenEvs tile_diffs
      let appearEvs := appearStage fps appear_diff_k appear_min_ms tile_diffs fg
      let cls :=
        (clusterEvents fps cluster_gap_ms (sortByFrame greenEvs)).take expect_rounds
      let roundEvs := roundEventsGo fps 0 cls
      let shuffleEvs := shuffleEvents fps shuffle_k force_shuffle diffs cls
      .ok
        ((appearEvs ++ roundEvs ++ shuffleEvs).insertionSort
          (fun e f => e.ts_ms ≤ f.ts_ms), fps)

/-! ### Cross-modal merge -/

/-- Scan for `np.argmin(np.abs(vis_ts - a))`: first index of minimal
distance. -/
def argminGo (a : ℚ) (l : List ℚ) (i best : ℕ) (bestd : ℚ) : ℕ :=
  match l with
  | [] => best
  | t :: rest =>
    if |t - a| < bestd then argminGo a rest (i + 1) i (|t - a|)
    else argminGo a rest (i + 1) best bestd

/-- `int(np.argmin(np.abs(vis_ts - a_ms)))` (0 for an empty list, never used
there by the code). -/
def argminAbs (a : ℚ) : List ℚ → ℕ
  | [] => 0
  | t :: rest => argminGo a rest 1 0 (|t - a|)

/-- The row `merge_events` emits for one audio onset `a`: the nearest visual
event's merged row when it lies within tolerance, else an `"audio_only"`
row. -/
def audioRow (visuals : List VisualEvent) (tol : ℚ) (a : ℚ) :
    ℚ × String × String :=
  if visuals.isEmpty then (a, "audio_only", "onset")
  else
    let visTs := visuals.map (fun v => v.ts_ms)
    let idx := argminAbs a visTs
    let delta := |visTs.getD idx 0 - a|
    if delta ≤ tol then
      let v := visuals.getD idx ⟨0, "", ""⟩
      (a, "audio+visual", v.label ++ ":" ++ v.detail)
    else (a, "audio_only", "onset")

/-- The standalone filter of the second loop of `merge_events`: a visual
event is emitted on its own exactly when its nearest audio onset is farther
than `tolerance_ms` (`float("inf")` when there are no onsets). -/
def keepVisual (audio : List ℚ) (tol : ℚ) (v : VisualEvent) : Bool :=
  match audio with
  | [] => true
  | a :: rest =>
    decide (tol < (rest.map (fun x => |x - v.ts_ms|)).foldl min (|a - v.ts_ms|))

/-- `merge_events(audio_ms, visuals, tolerance_ms)`: one row per audio onset,
the surviving standalone visual rows, all stably sorted by timestamp. -/
def mergeEvents (audio : List ℚ) (visuals : List VisualEvent) (tol : ℚ) :
    List (ℚ × String × String) :=
  (audio.map (audioRow visuals tol) ++
      (visuals.filter (keepVisual audio tol)).map
        (fun v => (v.ts_ms, v.label, v.detail))).insertionSort
    (fun x y => x.1 ≤ y.1)

/-! ### Helper lemmas -/

theorem fireGo_eq_deb (arr : List ℚ) (thr : ℚ) (gap : ℤ) :
    ∀ (fs : List ℕ) (last : ℤ),
      fireGo arr thr gap fs last = deb gap (fs.filter (isRisingEdge arr thr)) last := by
  intro fs
  induction fs with
  | nil => intro last; rfl
  | cons f fs ih =>
    intro last
    rw [fireGo, List.filter_cons]
    by_cases h : isRisingEdge arr thr f
    · rw [if_pos h, deb]
      by_cases hg : gap ≤ (f : ℤ) - last
      · simp [h, hg, ih]
      · simp [h, hg, ih]
    · simp [h, ih]

theorem greenFires_eq_deb (arr : List ℚ) (thr : ℚ) (gap : ℤ) :
    greenFires arr thr gap = deb gap (risingEdges arr thr) (-10000) := by
  rw [greenFires, risingEdges, fireGo_eq_deb]

theorem clusterGo_join (fps gap : ℚ) :
    ∀ (rest : List (ℕ × ℕ)) (cur : List (ℕ × ℕ)),
      (clusterGo fps gap cur rest).flatten = cur ++ rest := by
  intro rest
  induction rest with
  | nil => intro cur; simp [clusterGo]
  | cons e rest ih =>
    intro cur
    rw [clusterGo]
    split
    · rw [ih]; simp
    · simp [List.flatten, ih]

theorem clusterGo_ne_nil (fps gap : ℚ) :
    ∀ (rest : List (ℕ × ℕ)) (cur : List (ℕ × ℕ)), cur ≠ [] →
      ∀ c ∈ clusterGo fps gap cur rest, c ≠ [] := by
  intro rest
  induction rest with
  | nil =>
    intro cur hcur c hc
    rw [clusterGo] at hc
    have hceq : c = cur := by simpa using hc
    exact hceq ▸ hcur
  | cons e rest ih =>
    intro cur hcur c hc
    rw [clusterGo] at hc
    split at hc
    · exact ih _ (by simp) c hc
    · rcases List.mem_cons.1 hc with h | h
      · exact h ▸ hcur
      · exact ih [e] (by simp) c h

theorem clusterGo_head (fps gap : ℚ) :
    ∀ (rest : List (ℕ × ℕ)) (cur : List (ℕ × ℕ)), cur ≠ [] →
      ∃ c cs, clusterGo fps gap cur rest = c :: cs ∧ c.head? = cur.head? := by
  intro rest
  induction rest with
  | nil => intro cur _; exact ⟨cur, [], rfl, rfl⟩
  | cons e rest ih =>
    intro cur hcur
    rw [clusterGo]
    split
    · obtain ⟨c, cs, h1, h2⟩ := ih (cur ++ [e]) (by simp)
      refine ⟨c, cs, h1, h2.trans ?_⟩
      obtain ⟨x, xs, rfl⟩ := List.exists_cons_of_ne_nil hcur
      simp
    · exact ⟨cur, clusterGo fps gap [e] rest, rfl, rfl⟩

/-- The intra-cluster gap relation: consecutive events of one cluster are
within `cluster_gap_ms` of each other. -/
def gapOk (fps gap : ℚ) (p q : ℕ × ℕ) : Prop :=
  ((q.1 : ℚ) - (p.1 : ℚ)) * 1000 / fps ≤ gap

theorem clusterGo_chain (fps gap : ℚ) :
    ∀ (rest : List (ℕ × ℕ)) (cur : List (ℕ × ℕ)), cur ≠ [] →
      cur.Chain' (gapOk fps gap) →
      ∀ c ∈ clusterGo fps gap cur rest, c.Chain' (gapOk fps gap) := by
  intro rest
  induction rest with
  | nil =>
    intro cur _ hch c hc
    rw [clusterGo] at hc
    have hceq : c = cur := by simpa using hc
    exact hceq ▸ hch
  | cons e rest ih =>
    intro cur hcur hch c hc
    rw [clusterGo] at hc
    split at hc
    · rename_i hcond
      refine ih (cur ++ [e]) (by simp) ?_ c hc
      rw [List.chain'_append]
      refine ⟨hch, List.chain'_singleton e, ?_⟩
      intro x hx y hy
      rw [List.head?_cons, Option.mem_some_iff] at hy
      subst hy
      have hlast : cur.getLastD (0, 0) = x := by
        rw [List.getLastD_eq_getLast?, hx]; rfl
      rw [gapOk]
      rw [hlast] at hcond
      exact hcond
    · rcases List.mem_cons.1 hc with h | h
      · exact h ▸ hch
      · exact ih [e] (by simp) (List.chain'_singleton e) c h

/-- The inter-cluster gap relation: the head of the next cluster is more than
`cluster_gap_ms` after the last event of the previous one. -/
def gapBreak (fps gap : ℚ) (c d : List (ℕ × ℕ)) : Prop :=
  gap < (((d.headD (0, 0)).1 : ℚ) - ((c.getLastD (0, 0)).1 : ℚ)) * 1000 / fps

theorem clusterGo_chainB (fps gap : ℚ) :
    ∀ (rest : List (ℕ × ℕ)) (cur : List (ℕ × ℕ)), cur ≠ [] →
      (clusterGo fps gap cur rest).Chain' (gapBreak fps gap) := by
  intro rest
  induction rest with
  | nil => intro cur _; exact List.chain'_singleton cur
  | cons e rest ih =>
    intro cur hcur
    rw [clusterGo]
    split
    · exact ih (cur ++ [e]) (by simp)
    · rename_i hcond
      rw [List.chain'_cons']
      refine ⟨?_, ih [e] (by simp)⟩
      intro y hy
      obtain ⟨c, cs, h1, h2⟩ := clusterGo_head fps gap rest [e] (by simp)
      rw [h1, List.head?_cons, Option.mem_some_iff] at hy
      have hhead : c.headD (0, 0) = e := by
        rw [List.headD_eq_head?_getD, h2]; rfl
      rw [← hy, gapBreak, hhead]
      exact lt_of_not_le hcond

theorem dedupByTile_sublist :
    ∀ (c : List (ℕ × ℕ)) (seen : List ℕ), (dedupByTile c seen).Sublist c := by
  intro c
  induction c with
  | nil => intro seen; simp [dedupByTile]
  | cons p rest ih =>
    intro seen
    rw [dedupByTile]
    split
    · exact (ih seen).trans (List.sublist_cons_self p rest)
    · exact (ih (p.2 :: seen)).cons₂ p

theorem dedupByTile_notin_seen :
    ∀ (c : List (ℕ × ℕ)) (seen : List ℕ) (p : ℕ × ℕ),
      p ∈ dedupByTile c seen → p.2 ∉ seen := by
  intro c
  induction c with
  | nil => intro seen p hp; simp [dedupByTile] at hp
  | cons q rest ih =>
    intro seen p hp
    rw [dedupByTile] at hp
    split at hp
    · exact ih seen p hp
    · rcases List.mem_cons.1 hp with h | h
      · rename_i hq; subst h; exact hq
      · intro hmem
        exact ih _ p h (List.mem_cons_of_mem _ hmem)

theorem dedupByTile_nodup :
    ∀ (c : List (ℕ × ℕ)) (seen : List ℕ),
      ((dedupByTile c seen).map Prod.snd).Nodup := by
  intro c
  induction c with
  | nil => intro seen; simp [dedupByTile]
  | cons p rest ih =>
    intro seen
    rw [dedupByTile]
    split
    · exact ih seen
    · rw [List.map_cons, List.nodup_cons]
      refine ⟨?_, ih (p.2 :: seen)⟩
      intro hmem
      obtain ⟨q, hq, hq2⟩ := List.mem_map.1 hmem
      exact dedupByTile_notin_seen rest _ q hq (hq2 ▸ List.mem_cons_self _ _)

theorem dedupByTile_find? :
    ∀ (c : List (ℕ × ℕ)) (seen : List ℕ) (t : ℕ), t ∉ seen →
      (dedupByTile c seen).find? (fun p => p.2 == t) =
        c.find? (fun p => p.2 == t) := by
  intro c
  induction c with
  | nil => intro seen t _; rfl
  | cons p rest ih =>
    intro seen t ht
    rw [dedupByTile]
    split
    · rename_i hseen
      have hne : (p.2 == t) = false := by
        simp only [beq_eq_false_iff_ne]
        intro h; exact ht (h ▸ hseen)
      rw [List.find?_cons, hne, ih seen t ht]
    · by_cases hpt : p.2 = t
      · simp [List.find?_cons, hpt]
      · have hne : (p.2 == t) = false := by simpa using hpt
        rw [List.find?_cons, hne, List.find?_cons, hne]
        have ht' : t ∉ p.2 :: seen := by
          intro hmem
          rcases List.mem_cons.1 hmem with h | h
          · exact hpt h.symm
          · exact ht h
        exact ih (p.2 :: seen) t ht'

theorem clusterEvents_join (fps gap : ℚ) (evs : List (ℕ × ℕ)) :
    (clusterEvents fps gap evs).flatten = evs := by
  cases evs with
  | nil => rfl
  | cons e rest => rw [clusterEvents, clusterGo_join]; rfl

theorem clusterEvents_ne_nil (fps gap : ℚ) (evs : List (ℕ × ℕ)) :
    ∀ c ∈ clusterEvents fps gap evs, c ≠ [] := by
  cases evs with
  | nil => intro c hc; simp [clusterEvents] at hc
  | cons e rest =>
    rw [clusterEvents]
    exact clusterGo_ne_nil fps gap rest [e] (by simp)

theorem clusterEvents_chain (fps gap : ℚ) (evs : List (ℕ × ℕ)) :
    ∀ c ∈ clusterEvents fps gap evs, c.Chain' (gapOk fps gap) := by
  cases evs with
  | nil => intro c hc; simp [clusterEvents] at hc
  | cons e rest =>
    rw [clusterEvents]
    exact clusterGo_chain fps gap rest [e] (by simp) (List.chain'_singleton e)

theorem clusterEvents_chainB (fps gap : ℚ) (evs : List (ℕ × ℕ)) :
    (clusterEvents fps gap evs).Chain' (gapBreak fps gap) := by
  cases evs with
  | nil => simp [clusterEvents]
  | cons e rest =>
    rw [clusterEvents]
    exact clusterGo_chainB fps gap rest [e] (by simp)

theorem roundEventsGo_mem (fps : ℚ) :
    ∀ (cls : List (List (ℕ × ℕ))) (i0 : ℕ) (e : VisualEvent),
      e ∈ roundEventsGo fps i0 cls →
      ∃ j c, cls.get? j = some c ∧
        ∃ p ∈ dedupByTile c [], e = mkGreenEvent fps (i0 + j + 1) p := by
  intro cls
  induction cls with
  | nil => intro i0 e he; simp [roundEventsGo] at he
  | cons c cs ih =>
    intro i0 e he
    rw [roundEventsGo] at he
    rcases List.mem_append.1 he with h | h
    · obtain ⟨p, hp, hpe⟩ := List.mem_map.1 h
      exact ⟨0, c, rfl, p, hp, hpe.symm⟩
    · obtain ⟨j, c', hc', p, hp, hpe⟩ := ih (i0 + 1) e h
      refine ⟨j + 1, c', by simpa using hc', p, hp, ?_⟩
      rw [hpe]
      congr 1
      omega

theorem roundEventsGo_complete (fps : ℚ) :
    ∀ (cls : List (List (ℕ × ℕ))) (i0 j : ℕ) (c : List (ℕ × ℕ)),
      cls.get? j = some c →
      ∀ p ∈ dedupByTile c [],
        mkGreenEvent fps (i0 + j + 1) p ∈ roundEventsGo fps i0 cls := by
  intro cls
  induction cls with
  | nil => intro i0 j c hc; simp at hc
  | cons c0 cs ih =>
    intro i0 j c hc p hp
    rw [roundEventsGo]
    cases j with
    | zero =>
      rw [List.get?_cons_zero, Option.some_inj] at hc
      subst hc
      exact List.mem_append_left _ (List.mem_map_of_mem _ hp)
    | succ j' =>
      rw [List.get?_cons_succ] at hc
      refine List.mem_append_right _ ?_
      have := ih (i0 + 1) j' c hc p hp
      have harith : i0 + 1 + j' + 1 = i0 + (j' + 1) + 1 := by omega
      rwa [harith] at this

theorem appearStageGo_mem (fps k m : ℚ) (fg : ℕ) :
    ∀ (tds : List (List ℚ)) (i0 : ℕ) (e : VisualEvent),
      e ∈ appearStageGo fps k m fg i0 tds →
      ∃ j s, tds.get? j = some s ∧
        appearEventFor fps k m (i0 + j) s fg = some e := by
  intro tds
  induction tds with
  | nil => intro i0 e he; simp [appearStageGo] at he
  | cons s rest ih =>
    intro i0 e he
    rw [appearStageGo] at he
    rcases List.mem_append.1 he with h | h
    · refine ⟨0, s, rfl, ?_⟩
      rw [Option.mem_toList, Option.mem_def] at h
      simpa using h
    · obtain ⟨j, s', hs', happ⟩ := ih (i0 + 1) e h
      refine ⟨j + 1, s', by simpa using hs', ?_⟩
      rwa [show i0 + (j + 1) = i0 + 1 + j by omega]

theorem ratFloor_eq_intFloor (q : ℚ) : q.floor = ⌊q⌋ := by
  rw [Rat.floor_def', Rat.floor_def]

theorem getD_nonneg (s : List ℚ) (hmem : ∀ x ∈ s, 0 ≤ x) (k : ℕ) (d : ℚ)
    (hd : 0 ≤ d) : 0 ≤ s.getD k d := by
  rcases lt_or_ge k s.length with hk | hk
  · rw [List.getD_eq_getElem?_getD, List.getElem?_eq_getElem hk]
    exact hmem _ (List.getElem_mem hk)
  · rw [List.getD_eq_getElem?_getD, List.getElem?_eq_none hk]
    exact hd

theorem percentile_nonneg (l : List ℚ) (q : ℚ) (hq : 0 ≤ q)
    (h : ∀ x ∈ l, 0 ≤ x) : 0 ≤ percentile l q := by
  rw [percentile]
  have hmem : ∀ x ∈ l.insertionSort (· ≤ ·), 0 ≤ x := fun x hx =>
    h x ((List.mem_insertionSort _).1 hx)
  set s := l.insertionSort (· ≤ ·) with hs
  set i : ℚ := ((l.length : ℚ) - 1) * q / 100 with hi
  set k : ℕ := i.floor.toNat with hk
  set lo := s.getD k 0 with hlo
  set hi2 := s.getD (k + 1) lo with hhi2
  have hlo0 : 0 ≤ lo := getD_nonneg s hmem k 0 le_rfl
  have hhi0 : 0 ≤ hi2 := getD_nonneg s hmem (k + 1) lo hlo0
  cases l with
  | nil =>
    have hs0 : s = [] := by rw [hs]; rfl
    have : lo = 0 := by rw [hlo, hs0]; rfl
    have h2 : hi2 = 0 := by rw [hhi2, hs0, this]; rfl
    rw [this, h2]
    simp
  | cons x xs =>
    have hn : (1 : ℚ) ≤ ((x :: xs).length : ℚ) := by
      have : 1 ≤ (x :: xs).length := by simp
      exact_mod_cast this
    have hi0 : 0 ≤ i := by
      rw [hi]
      apply div_nonneg _ (by norm_num)
      exact mul_nonneg (by linarith) hq
    have hfl : (0 : ℤ) ≤ ⌊i⌋ := Int.floor_nonneg.2 hi0
    have hkfl : (k : ℤ) = ⌊i⌋ := by
      rw [hk, ratFloor_eq_intFloor]
      exact Int.toNat_of_nonneg hfl
    have hkle : (k : ℚ) ≤ i := by
      have := Int.floor_le i
      rw [← hkfl] at this
      exact_mod_cast this
    have hklt : i < (k : ℚ) + 1 := by
      have := Int.lt_floor_add_one i
      rw [← hkfl] at this
      exact_mod_cast this
    have ht0 : 0 ≤ i - (k : ℚ) := by linarith
    have ht1 : i - (k : ℚ) ≤ 1 := by linarith
    nlinarith [mul_nonneg ht0 hhi0, mul_nonneg (by linarith : (0:ℚ) ≤ 1 - (i - (k:ℚ))) hlo0]

theorem median_nonneg (l : List ℚ) (h : ∀ x ∈ l, 0 ≤ x) : 0 ≤ median l :=
  percentile_nonneg l 50 (by norm_num) h

theorem rawMad_nonneg (l : List ℚ) : 0 ≤ rawMad l := by
  rw [rawMad]
  apply median_nonneg
  intro x hx
  obtain ⟨y, _, rfl⟩ := List.mem_map.1 hx
  exact abs_nonneg _

theorem mad_pos (l : List ℚ) : 0 < _mad l := by
  rw [_mad]
  split
  · norm_num
  · rename_i h
    exact lt_of_le_of_ne (rawMad_nonneg l) (Ne.symm h)

theorem argminGo_spec (a : ℚ) (ts : List ℚ) :
    ∀ (n : ℕ) (i best : ℕ) (bestd : ℚ), i + n = ts.length → best < ts.length →
      bestd = |ts.getD best 0 - a| →
      (∀ j, j < i → bestd ≤ |ts.getD j 0 - a|) →
      argminGo a (ts.drop i) i best bestd < ts.length ∧
        ∀ j, j < ts.length →
          |ts.getD (argminGo a (ts.drop i) i best bestd) 0 - a| ≤
            |ts.getD j 0 - a| := by
  intro n
  induction n with
  | zero =>
    intro i best bestd hlen hbest hbestd hmin
    have hdrop : ts.drop i = [] := by
      apply List.drop_eq_nil_of_le
      omega
    rw [hdrop, argminGo]
    refine ⟨hbest, ?_⟩
    intro j hj
    rw [← hbestd]
    exact hmin j (by omega)
  | succ n ih =>
    intro i best bestd hlen hbest hbestd hmin
    have hi : i < ts.length := by omega
    have hdrop : ts.drop i = ts[i] :: ts.drop (i + 1) :=
      List.drop_eq_getElem_cons hi
    have hgetd : ts.getD i 0 = ts[i] := by
      rw [List.getD_eq_getElem?_getD, List.getElem?_eq_getElem hi]; rfl
    rw [hdrop, argminGo]
    split
    · rename_i hlt
      have := ih (i + 1) i (|ts[i] - a|) (by omega) hi (by rw [hgetd])
        (fun j hj => by
          rcases Nat.lt_succ_iff_lt_or_eq.1 hj with h | h
          · calc |ts[i] - a| ≤ bestd := le_of_lt hlt
              _ ≤ |ts.getD j 0 - a| := hmin j h
          · rw [h, hgetd])
      exact this
    · rename_i hge
      push_neg at hge
      have := ih (i + 1) best bestd (by omega) hbest hbestd
        (fun j hj => by
          rcases Nat.lt_succ_iff_lt_or_eq.1 hj with h | h
          · exact hmin j h
          · rw [h, hgetd]; exact hbestd ▸ hge)
      exact this

theorem argminAbs_spec (a : ℚ) (ts : List ℚ) (hne : ts ≠ []) :
    argminAbs a ts < ts.length ∧
      ∀ j, j < ts.length →
        |ts.getD (argminAbs a ts) 0 - a| ≤ |ts.getD j 0 - a| := by
  obtain ⟨t, rest, rfl⟩ := List.exists_cons_of_ne_nil hne
  rw [argminAbs]
  have hdrop : (t :: rest).drop 1 = rest := rfl
  have := argminGo_spec a (t :: rest) rest.length 1 0 (|t - a|)
    (by simp only [List.length_cons]; omega) (by simp) (by rfl)
    (fun j hj => by
      have hj0 : j = 0 := by omega
      subst hj0
      exact le_refl _)
  rw [hdrop] at this
  exact this

theorem head?_filter_mem {α : Type} (l : List α) (p : α → Bool) (a : α)
    (h : (l.filter p).head? = some a) : a ∈ l ∧ p a = true := by
  have hmem : a ∈ l.filter p := List.mem_of_mem_head? (Option.mem_def.2 h)
  exact ⟨(List.mem_filter.1 hmem).1, (List.mem_filter.1 hmem).2⟩

theorem head?_filter_min (l : List ℕ) (p : ℕ → Bool) (a : ℕ)
    (hl : l.Pairwise (· < ·)) (h : (l.filter p).head? = some a) :
    ∀ b ∈ l, p b = true → a ≤ b := by
  intro b hb hpb
  have hpair : (l.filter p).Pairwise (· < ·) := hl.filter p
  have hbmem : b ∈ l.filter p := List.mem_filter.2 ⟨hb, hpb⟩
  cases hf : l.filter p with
  | nil => rw [hf] at hbmem; simp at hbmem
  | cons x xs =>
    rw [hf] at h hpair hbmem
    rw [List.head?_cons, Option.some_inj] at h
    subst h
    rcases List.mem_cons.1 hbmem with hcase | hcase
    · omega
    · have := (List.pairwise_cons.1 hpair).1 b hcase
      omega

/-! ### Concrete inputs used by the claims -/

/-- The C1 scenario signal: a 10-second 10 fps video, `color_signal` 0 for
frames 0–49 and 1000 for frames 50–99. -/
def c1Signal : List ℚ := List.replicate 50 0 ++ List.replicate 50 1000

/-- The amended C1 signal: the high level shortened to frames 50–56 so that
the adaptive threshold stays below the peak. -/
def c1AmendedSignal : List ℚ :=
  List.replicate 50 0 ++ List.replicate 7 1000 ++ List.replicate 43 0

/-- C5 counterexample signal: two spikes at frames 20 and 29 (9 frames
apart) in a flat background, for `fps = 23` where `0.4 × fps = 9.2`. -/
def c5X : List ℚ :=
  List.replicate 20 0 ++ [1000] ++ List.replicate 8 0 ++ [1000] ++
    List.replicate 20 0

/-- C5 witness signal: two spikes at frames 5 and 7 (2 frames apart) for
`fps = 10` where `int(0.4 × fps) = 4`. -/
def c5W : List ℚ := [0, 0, 0, 0, 0, 100, 0, 100] ++ List.replicate 12 0

/-- C6 counterexample diff series: a spike at index 4 (timestamp 500 ms at
10 fps). -/
def c6Diff : List ℚ := [0, 0, 0, 0, 100, 0, 0, 0, 0, 0]

/-- C6 witness diff series: a spike at index 24 (timestamp 2500 ms at
10 fps). -/
def c6Late : List ℚ := List.replicate 24 0 ++ [100] ++ List.replicate 5 0

/-- C10 green signal of tile 0: rising edge at frame 7. -/
def c10Green0 : List ℚ := [0, 0, 0, 0, 0, 0, 0, 100, 0, 0]

/-- C10 green signal of tile 1: rising edge at frame 2 (the globally
earliest flash). -/
def c10Green1 : List ℚ := [0, 0, 100, 0, 0, 0, 0, 0, 0, 0]

/-- C10 diff series of tile 0: a spike at index 4 inside the code's search
window. -/
def c10Diff0 : List ℚ := [0, 0, 0, 0, 100, 0, 0, 0, 0]

/-- C10 diff series of tile 1: flat. -/
def c10Diff1 : List ℚ := [0, 0, 0, 0, 0, 0, 0, 0, 0]

/-! ### Claim C1 -/

/-- C1 counterexample: on the exact scenario of the claim (100 frames at
10 fps, `color_signal` 0 for frames 0–49 and 1000 for frames 50–99, default
`green_k = 3.5` and percentile 92), the flash detector followed by round
clustering produces NO flash event at all — the sustained 50-frame high
level drives the adaptive threshold to 2250, above the signal's peak 1000 —
so the claimed single event at 5000 ms does not appear. -/
theorem c1_counterexample :
    greenPipeline 10 greenKDefault clusterGapMsDefault expectRoundsDefault
        [c1Signal] = [] ∧
    greenPipeline 10 greenKDefault clusterGapMsDefault expectRoundsDefault
        [c1Signal] ≠ [VisualEvent.mk 5000 "cell_0" "green_round1"] ∧
    greenThreshold greenKDefault c1Signal = 2250 := by
  have h0 : greenPipeline 10 greenKDefault clusterGapMsDefault
      expectRoundsDefault [c1Signal] = [] := by decide
  exact ⟨h0, by rw [h0]; decide, by decide⟩

/-- C1 (amended): the scenario as stated yields no events, because the
50-frame plateau raises the threshold (median 500 + 3.5 × MAD 500 = 2250)
above the peak; with the high level shortened to frames 50–56 the same
pipeline produces exactly one flash event at t = 5000 ms, labeled with the
single ROI (`cell_0`), with detail `"green_round1"`. -/
theorem c1_end_to_end_flash :
    greenPipeline 10 greenKDefault clusterGapMsDefault expectRoundsDefault
        [c1AmendedSignal] = [VisualEvent.mk 5000 "cell_0" "green_round1"] := by
  decide

/-! ### Claim C2 -/

/-- C2 counterexample: on the series `[0, 0, 1, 1]` the raw median absolute
deviation is 1/2, and `_mad` returns 1/2 — not the claimed
`max(raw MAD, 1.0) = 1`. -/
theorem c2_counterexample :
    _mad [0, 0, 1, 1] = 1/2 ∧ specMadFloor [0, 0, 1, 1] = 1 ∧
      _mad [0, 0, 1, 1] ≠ specMadFloor [0, 0, 1, 1] := by decide

/-- C2 (amended): the MAD value used is the raw median absolute deviation
whenever that is non-zero, and 1.0 exactly when it is zero (so a flat series
is treated as MAD = 1.0 and the value used is always positive, never
zero-width); it agrees with the spec's `max(raw, 1.0)` only when the raw MAD
is at least 1. -/
theorem c2_mad_floor (l : List ℚ) :
    0 < _mad l ∧ (rawMad l = 0 → _mad l = 1) ∧
      (rawMad l ≠ 0 → _mad l = rawMad l) ∧
      (1 ≤ rawMad l → _mad l = specMadFloor l) := by
  refine ⟨mad_pos l, ?_, ?_, ?_⟩
  · intro h; rw [_mad, if_pos h]
  · intro h; rw [_mad, if_neg h]
  · intro h
    have hne : rawMad l ≠ 0 := by intro h0; rw [h0] at h; norm_num at h
    rw [_mad, if_neg hne, specMadFloor, max_eq_left h]

/-- C2 witness: `c2_mad_floor` applied at the series `[0, 0, 5, 5]`, whose
raw MAD is 5/2. -/
theorem c2_mad_floor_witness :
    _mad [0, 0, 5, 5] = rawMad [0, 0, 5, 5] ∧
      _mad [0, 0, 5, 5] = specMadFloor [0, 0, 5, 5] :=
  ⟨(c2_mad_floor [0, 0, 5, 5]).2.2.1 (by decide),
   (c2_mad_floor [0, 0, 5, 5]).2.2.2 (by decide)⟩

/-! ### Claim C7 -/

/-- C7 counterexample: on the flat series `[0, 0, 0, 0]` the code's shuffle
threshold with its own default `shuffle_k = 3.5` is 3.5, while the spec's
shared primitive `max(median + 3.0·MAD, percentile)` with the claimed
default 3.0 gives 3; the function default also differs from the claimed
3.0. -/
theorem c7_counterexample :
    shuffleThreshold shuffleKDefault [0, 0, 0, 0] = 7/2 ∧
      specAdaptiveThreshold cliShuffleKDefault 92 [0, 0, 0, 0] = 3 ∧
      shuffleKDefault ≠ cliShuffleKDefault ∧
      shuffleThreshold shuffleKDefault [0, 0, 0, 0] ≠
        specAdaptiveThreshold cliShuffleKDefault 92 [0, 0, 0, 0] := by decide

/-- C7 (amended): the shuffle detector computes its threshold over the whole
`global_diff_signal` as `median + shuffle_k · MAD`, with no percentile term:
it never exceeds the spec's shared primitive and agrees with it exactly when
the percentile term is dominated; `shuffle_k` defaults to 3.5 in
`detect_round_events` (the CLI default is 3.0). -/
theorem c7_shuffle_threshold (k p : ℚ) (diffs : List ℚ) :
    shuffleThreshold k diffs ≤ specAdaptiveThreshold k p diffs ∧
      (specAdaptiveThreshold k p diffs = shuffleThreshold k diffs ↔
        percentile diffs p ≤ shuffleThreshold k diffs) ∧
      shuffleKDefault = 7/2 ∧ cliShuffleKDefault = 3 := by
  refine ⟨le_max_left _ _, ?_, by decide, rfl⟩
  rw [specAdaptiveThreshold, shuffleThreshold]
  exact max_eq_left_iff

/-! ### Claim C8 -/

/-- C8: the detector fails (with a decode error carrying no partial result)
exactly when the capture is not opened or yields zero decoded frames, and
given at least one decoded frame it returns a result (never raises),
whatever the extraction functions and parameters; there is no retry. -/
theorem c8_zero_frame_failure {α : Type} (opened : Bool) (fps0 : ℚ)
    (framesL : List α) (greenOf : ℕ → α → ℚ) (tileDiffOf : ℕ → α → α → ℚ)
    (globalDiffOf : α → α → ℚ) (nTiles expect : ℕ)
    (gap gk ak sk adk amm : ℚ) (force : Bool) :
    (detectRoundEvents opened fps0 framesL greenOf tileDiffOf globalDiffOf
        nTiles expect gap gk ak sk adk amm force).isOk =
      (opened && !framesL.isEmpty) := by
  cases opened with
  | false => rfl
  | true =>
    cases framesL with
    | nil => rfl
    | cons f rest => rfl

/-! ### Claims C9 and C4 -/

theorem audioRow_fst (visuals : List VisualEvent) (tol a : ℚ) :
    (audioRow visuals tol a).1 = a := by
  rw [audioRow]
  split
  · rfl
  · simp only []
    split
    · rfl
    · rfl

theorem audioRow_kind (visuals : List VisualEvent) (tol a : ℚ) :
    (audioRow visuals tol a).2.1 = "audio+visual" ∨
      (audioRow visuals tol a).2.1 = "audio_only" := by
  rw [audioRow]
  split
  · exact Or.inr rfl
  · simp only []
    split
    · exact Or.inl rfl
    · exact Or.inr rfl

theorem audioRow_kind_iff (visuals : List VisualEvent) (tol a : ℚ)
    (hne : visuals ≠ []) :
    (audioRow visuals tol a).2.1 = "audio+visual" ↔
      ∃ v ∈ visuals, |v.ts_ms - a| ≤ tol := by
  have hlen : 0 < visuals.length := List.length_pos.2 hne
  have hspec := argminAbs_spec a (visuals.map (fun v => v.ts_ms))
    (by simpa using hne)
  rw [List.length_map] at hspec
  obtain ⟨hidx, hmin⟩ := hspec
  have hts : ∀ (j : ℕ) (hj : j < visuals.length),
      (visuals.map (fun v => v.ts_ms)).getD j 0 = visuals[j].ts_ms := by
    intro j hj
    rw [List.getD_eq_getElem?_getD,
      List.getElem?_eq_getElem (by simpa using hj), List.getElem_map]
    rfl
  rw [audioRow, if_neg (by simpa using hne)]
  simp only []
  split
  · rename_i hdelta
    constructor
    · intro _
      refine ⟨visuals[argminAbs a (visuals.map (fun v => v.ts_ms))],
        List.getElem_mem hidx, ?_⟩
      rw [← hts _ hidx]
      exact hdelta
    · intro _; rfl
  · rename_i hdelta
    constructor
    · intro h
      have hstr : ("audio_only" : String) ≠ "audio+visual" := by decide
      exact absurd h hstr
    · rintro ⟨v, hv, hvt⟩
      exfalso
      apply hdelta
      obtain ⟨j, hj, rfl⟩ := List.getElem_of_mem hv
      calc |(visuals.map (fun v => v.ts_ms)).getD
              (argminAbs a (visuals.map (fun v => v.ts_ms))) 0 - a|
          ≤ |(visuals.map (fun v => v.ts_ms)).getD j 0 - a| := hmin j hj
        _ = |visuals[j].ts_ms - a| := by rw [hts j hj]
        _ ≤ tol := hvt

/-- C9: `merge_events` emits, up to the final stable sort, exactly one row
per audio onset (tagged `"audio+visual"` or `"audio_only"`, carrying the
onset's own timestamp) plus the surviving standalone visual rows; no onset
is dropped or duplicated regardless of how many visual events lie within
tolerance. -/
theorem c9_one_row_per_onset (audio : List ℚ) (visuals : List VisualEvent)
    (tol : ℚ) :
    (mergeEvents audio visuals tol).Perm
      (audio.map (audioRow visuals tol) ++
        (visuals.filter (keepVisual audio tol)).map
          (fun v => (v.ts_ms, v.label, v.detail))) ∧
    ∀ a : ℚ, (audioRow visuals tol a).1 = a ∧
      ((audioRow visuals tol a).2.1 = "audio+visual" ∨
        (audioRow visuals tol a).2.1 = "audio_only") := by
  constructor
  · exact List.perm_insertionSort _ _
  · intro a
    exact ⟨audioRow_fst visuals tol a, audioRow_kind visuals tol a⟩

/-- C4: an audio onset is merged into a single `"audio+visual"` row exactly
when some visual event lies within `tolerance_ms` of it (equivalently, its
nearest visual event does, since the scanned index minimises the distance),
and otherwise becomes an `"audio_only"` row; concretely, an onset at 1000 ms
and a visual event at 1119 ms merge under tolerance 120 (the visual event is
not separately emitted), while at 1121 ms they do not and both rows appear
separately. -/
theorem c4_merge_tolerance_boundary (visuals : List VisualEvent) (tol a : ℚ) :
    (visuals ≠ [] →
      ((audioRow visuals tol a).2.1 = "audio+visual" ↔
        ∃ v ∈ visuals, |v.ts_ms - a| ≤ tol)) ∧
    ((audioRow visuals tol a).2.1 = "audio+visual" ∨
      (audioRow visuals tol a).2.1 = "audio_only") ∧
    mergeEvents [1000] [⟨1119, "cell_0", "green_round1"⟩] 120 =
      [(1000, "audio+visual", "cell_0:green_round1")] ∧
    mergeEvents [1000] [⟨1121, "cell_0", "green_round1"⟩] 120 =
      [(1000, "audio_only", "onset"), (1121, "cell_0", "green_round1")] :=
  ⟨audioRow_kind_iff visuals tol a, audioRow_kind visuals tol a,
    by decide, by decide⟩

/-- C4 witness: `c4_merge_tolerance_boundary` at the 1119 ms scenario. -/
theorem c4_merge_tolerance_witness :
    (audioRow [⟨1119, "cell_0", "green_round1"⟩] 120 1000).2.1 =
        "audio+visual" ↔
      ∃ v ∈ [VisualEvent.mk 1119 "cell_0" "green_round1"],
        |v.ts_ms - 1000| ≤ 120 :=
  (c4_merge_tolerance_boundary [⟨1119, "cell_0", "green_round1"⟩] 120 1000).1
    (by decide)

/-! ### Claim C5 -/

/-- C5 counterexample: at `fps = 23` the signal `c5X` has exactly two
above-threshold rising edges, 9 frames apart — less than
`0.4 × fps = 9.2` frames — yet the detector records BOTH edges, because the
debounce gap is `int(fps * 0.4) = 9` and `9 ≥ 9` lets the second edge
fire. -/
theorem c5_counterexample :
    risingEdges c5X (greenThreshold greenKDefault c5X) = [20, 29] ∧
      ((29 : ℚ) - 20 < 23 * (2/5)) ∧
      greenFires c5X (greenThreshold greenKDefault c5X) (minGapFrames 23) =
        [20, 29] ∧
      greenFires c5X (greenThreshold greenKDefault c5X) (minGapFrames 23) ≠
        [20] := by
  have hthr : greenThreshold greenKDefault c5X = 7/2 := by decide
  rw [hthr]
  exact ⟨by decide, by norm_num, by decide, by decide⟩

/-- C5 (amended): when a color signal has exactly two above-threshold rising
edges whose frame distance is less than `int(fps * 0.4)` (the floor of
`0.4 × fps`, the gap the code actually uses), and the debounce gap does not
exceed the 10000-frame sentinel head-start (true for every real frame
rate), the detector records exactly one flash for that ROI — the first
edge. -/
theorem c5_flash_debounce (fps k : ℚ) (arr : List ℚ) (f1 f2 : ℕ)
    (hgap : minGapFrames fps ≤ 10000)
    (hedges : risingEdges arr (greenThreshold k arr) = [f1, f2])
    (hlt : (f2 : ℤ) - (f1 : ℤ) < minGapFrames fps) :
    greenFires arr (greenThreshold k arr) (minGapFrames fps) = [f1] := by
  rw [greenFires_eq_deb, hedges, deb,
    if_pos (by omega : minGapFrames fps ≤ (f1 : ℤ) - (-10000)), deb,
    if_neg (by omega), deb]

/-- C5 witness: `c5_flash_debounce` at `fps = 10` on `c5W`, whose two edges
at frames 5 and 7 are 2 < 4 = `int(10 * 0.4)` frames apart. -/
theorem c5_flash_debounce_witness :
    greenFires c5W (greenThreshold greenKDefault c5W) (minGapFrames 10) =
      [5] :=
  c5_flash_debounce 10 greenKDefault c5W 5 7 (by decide)
    (by
      have hthr : greenThreshold greenKDefault c5W = 48 := by decide
      rw [hthr]; decide)
    (by decide)

/-! ### Claim C6 -/

/-- C6 counterexample: `detect_round_events` defaults `appear_min_ms` to
0.0, not 2000; with that default an appear event at 500 ms — well before
2000 ms — is emitted rather than suppressed. -/
theorem c6_counterexample :
    appearMinMsDefault = 0 ∧ appearMinMsDefault ≠ 2000 ∧
      appearEventFor 10 appearDiffKDefault appearMinMsDefault 0 c6Diff 0 =
        some (VisualEvent.mk 500 "cell_0" "appear") ∧
      ¬ (2000 ≤ (500 : ℚ)) := by
  exact ⟨rfl, by norm_num [appearMinMsDefault], by decide, by norm_num⟩

/-- C6 (amended): the core function's own default is `appear_min_ms = 0.0`
(no early suppression); the 2000 ms default belongs to the command-line
parser, and when that value is passed down, every emitted appear event has
timestamp ≥ 2000 ms and is the earliest threshold-meeting window index whose
timestamp clears the minimum. -/
theorem c6_appear_min_default :
    appearMinMsDefault = 0 ∧ cliAppearMinMsDefault = 2000 ∧
      ∀ (fps k : ℚ) (i : ℕ) (s : List ℚ) (fg : ℕ) (e : VisualEvent),
        appearEventFor fps k cliAppearMinMsDefault i s fg = some e →
        2000 ≤ e.ts_ms ∧
          ∃ idx ∈ appearIdxs k (appearWindow s fg),
            e.ts_ms = ((idx : ℚ) + 1) * 1000 / fps ∧
            ∀ j ∈ appearIdxs k (appearWindow s fg),
              2000 ≤ ((j : ℚ) + 1) * 1000 / fps → idx ≤ j := by
  refine ⟨rfl, rfl, ?_⟩
  intro fps k i s fg e h
  rw [appearEventFor] at h
  split at h
  · exact absurd h (by simp)
  · split at h
    · exact absurd h (by simp)
    · rw [Option.map_eq_some'] at h
      obtain ⟨idx0, hhead, hmk⟩ := h
      have hpred := head?_filter_mem _ _ _ hhead
      have hts : e.ts_ms = ((idx0 : ℚ) + 1) * 1000 / fps := by rw [← hmk]
      have hmem := hpred.1
      have hge : 2000 ≤ ((idx0 : ℚ) + 1) * 1000 / fps := by
        have := hpred.2
        rw [decide_eq_true_eq] at this
        exact this
      refine ⟨by rw [hts]; exact hge, ⟨idx0, hmem, hts, ?_⟩⟩
      intro j hj hjge
      have hpair : (appearIdxs k (appearWindow s fg)).Pairwise (· < ·) := by
        rw [appearIdxs]
        exact (List.pairwise_lt_range _).filter _
      refine head?_filter_min _ _ _ hpair hhead j hj ?_
      rw [decide_eq_true_eq]
      exact hjge

/-- C6 witness: `c6_appear_min_default` at `fps = 10` on `c6Late`, whose
only qualifying index 24 has timestamp 2500 ms. -/
theorem c6_appear_min_default_witness :
    2000 ≤ (VisualEvent.mk 2500 "cell_0" "appear").ts_ms ∧
      ∃ idx ∈ appearIdxs appearDiffKDefault (appearWindow c6Late 0),
        (VisualEvent.mk 2500 "cell_0" "appear").ts_ms =
            ((idx : ℚ) + 1) * 1000 / 10 ∧
        ∀ j ∈ appearIdxs appearDiffKDefault (appearWindow c6Late 0),
          2000 ≤ ((j : ℚ) + 1) * 1000 / 10 → idx ≤ j :=
  c6_appear_min_default.2.2 10 appearDiffKDefault 0 c6Late 0
    (VisualEvent.mk 2500 "cell_0" "appear") (by decide)

/-! ### Claim C10 -/

/-- C10 counterexample: with tile 0 flashing at frame 7 and tile 1 flashing
at frame 2, the globally earliest flash is at frame 2, so the claim's
appear window (the diff prefix up to the first flash across all ROIs) has
only 2 < 5 samples — yet the code emits an appear event for tile 0, because
it reads `green_events[0]` BEFORE sorting and therefore uses the first fire
of the lowest-indexed tile (frame 7) as the window bound. -/
theorem c10_counterexample :
    allGreenEvents 10 greenKDefault [c10Green0, c10Green1] =
        [(7, 0), (2, 1)] ∧
      (sortByFrame
          (allGreenEvents 10 greenKDefault [c10Green0, c10Green1])).headD
          (0, 0) = (2, 1) ∧
      (c10Diff0.take 2).length < 5 ∧
      firstGreenFrame (allGreenEvents 10 greenKDefault [c10Green0, c10Green1])
          [c10Diff0, c10Diff1] = 7 ∧
      appearStage 10 appearDiffKDefault appearMinMsDefault
          [c10Diff0, c10Diff1]
          (firstGreenFrame
            (allGreenEvents 10 greenKDefault [c10Green0, c10Green1])
            [c10Diff0, c10Diff1]) =
        [VisualEvent.mk 500 "cell_0" "appear"] := by
  have hall : allGreenEvents 10 greenKDefault [c10Green0, c10Green1] =
      [(7, 0), (2, 1)] := by decide
  rw [hall]
  exact ⟨rfl, by decide, by decide, by decide, by decide⟩

/-- C10 (amended): the detector's appear window for each ROI is the diff
prefix up to the frame of the first entry of the tile-grouped flash list
(the first fire of the lowest-indexed firing ROI — not the globally earliest
flash); whenever that window, as the code computes it
(`min(len, first_green_frame)` when `first_green_frame > 0`, else the full
series), has fewer than 5 samples, no appear event is emitted for that ROI,
and every emitted appear event arises from some ROI's `appearEventFor`. -/
theorem c10_short_window_suppression :
    (∀ (fps k m : ℚ) (i : ℕ) (s : List ℚ) (fg : ℕ),
        searchUpto s.length fg < 5 → appearEventFor fps k m i s fg = none) ∧
      ∀ (fps k m : ℚ) (tds : List (List ℚ)) (fg : ℕ) (e : VisualEvent),
        e ∈ appearStage fps k m tds fg →
        ∃ j s, tds.get? j = some s ∧
          appearEventFor fps k m j s fg = some e := by
  constructor
  · intro fps k m i s fg h
    rw [appearEventFor]
    split
    · rfl
    · rfl
  · intro fps k m tds fg e he
    obtain ⟨j, s, hs, happ⟩ := appearStageGo_mem fps k m fg tds 0 e he
    rw [Nat.zero_add] at happ
    exact ⟨j, s, hs, happ⟩

/-- C10 witness: `c10_short_window_suppression` on a 4-sample series (window
shorter than 5), for which no appear event is emitted. -/
theorem c10_short_window_witness :
    appearEventFor 10 appearDiffKDefault appearMinMsDefault 7 [1, 2, 3, 4]
      0 = none :=
  c10_short_window_suppression.1 10 appearDiffKDefault appearMinMsDefault 7
    [1, 2, 3, 4] 0 (by decide)

/-! ### Claim C3 -/

/-- C3: the greedy clusterer partitions the event list in order (flattening
the clusters restores the input), consecutive events within a cluster are
within `cluster_gap_ms` (computed from the last event added), consecutive
clusters are separated by more than `cluster_gap_ms`, emission draws only
from the first `expect_rounds` clusters (excess clusters are dropped, not
merged) with 1-indexed round labels, deduplication by ROI keeps the first
occurrence per ROI; on frames `[0, 5, 40]` at `fps = 10` with
`cluster_gap_ms = 1200` this yields two clusters of sizes 2 and 1. -/
theorem c3_round_clusterer (fps gap : ℚ) (evs : List (ℕ × ℕ)) (expect : ℕ) :
    (clusterEvents fps gap evs).flatten = evs ∧
      (∀ c ∈ clusterEvents fps gap evs, c ≠ []) ∧
      (∀ c ∈ clusterEvents fps gap evs, c.Chain' (gapOk fps gap)) ∧
      (clusterEvents fps gap evs).Chain' (gapBreak fps gap) ∧
      (∀ e ∈ roundEventsGo fps 0 ((clusterEvents fps gap evs).take expect),
        ∃ j, j < expect ∧ ∃ c, (clusterEvents fps gap evs).get? j = some c ∧
          ∃ p ∈ dedupByTile c [], e = mkGreenEvent fps (j + 1) p) ∧
      (∀ c : List (ℕ × ℕ),
        ((dedupByTile c []).map Prod.snd).Nodup ∧
          (dedupByTile c []).Sublist c ∧
          ∀ t : ℕ, (dedupByTile c []).find? (fun p => p.2 == t) =
            c.find? (fun p => p.2 == t)) ∧
      (clusterEvents 10 1200 [(0, 0), (5, 1), (40, 2)]).map List.length =
        [2, 1] := by
  refine ⟨clusterEvents_join fps gap evs, clusterEvents_ne_nil fps gap evs,
    clusterEvents_chain fps gap evs, clusterEvents_chainB fps gap evs,
    ?_, ?_, by decide⟩
  · intro e he
    obtain ⟨j, c, hc, p, hp, hpe⟩ :=
      roundEventsGo_mem fps ((clusterEvents fps gap evs).take expect) 0 e he
    have hjlen : j < ((clusterEvents fps gap evs).take expect).length := by
      rcases List.get?_eq_some.1 hc with ⟨hlt, _⟩
      exact hlt
    have hje : j < expect := by
      rw [List.length_take] at hjlen
      omega
    refine ⟨j, hje, c, ?_, p, hp, by simpa using hpe⟩
    rw [← List.get?_take hje]
    exact hc
  · intro c
    exact ⟨dedupByTile_nodup c [], dedupByTile_sublist c [],
      fun t => dedupByTile_find? c [] t (by simp)⟩

/-- C3 witness: `c3_round_clusterer` instantiated on the concrete
`[0, 5, 40]` scenario, discharging the membership hypotheses at the first
cluster `[(0, 0), (5, 1)]`. -/
theorem c3_round_clusterer_witness :
    ([(0, 0), (5, 1)] : List (ℕ × ℕ)) ≠ [] ∧
      List.Chain' (gapOk 10 1200) [(0, 0), (5, 1)] :=
  ⟨(c3_round_clusterer 10 1200 [(0, 0), (5, 1), (40, 2)] 5).2.1
      [(0, 0), (5, 1)] (by decide),
    (c3_round_clusterer 10 1200 [(0, 0), (5, 1), (40, 2)] 5).2.2.1
      [(0, 0), (5, 1)] (by decide)⟩

end AnalyzeBeats
